import Mathlib

/- Verification development for the shape-detection pipeline of this
repository.  The pipeline lives in src/main.ts (class ShapeDetector,
method detectShapes) with a near-duplicate earlier variant in
src/unnamed/part_000.  JavaScript numbers are modelled as exact
rationals; values produced by a division (which in JavaScript may be
positive infinity, negative infinity or NaN) are modelled by JNum.
Square roots are never needed as values by the control flow of the
program: every square root is only compared against another
nonnegative quantity, so distances are represented throughout by
their squares (x ↦ x^2 is strictly monotone on nonnegative reals,
hence all comparisons are preserved exactly). -/

namespace ShapeDet

/-- Model of a JavaScript number produced by a division or by the
circularity formula: a finite rational, +Infinity, -Infinity, or NaN. -/
inductive JNum where
  | val : ℚ → JNum
  | inf : JNum
  | ninf : JNum
  | nan : JNum
deriving DecidableEq

/-- JavaScript comparison `x > c` against a finite constant c:
NaN compares false, +Infinity compares true, -Infinity compares false. -/
def jgt : JNum → ℚ → Bool
  | JNum.val q, c => decide (c < q)
  | JNum.inf, _ => true
  | JNum.ninf, _ => false
  | JNum.nan, _ => false

/-- JavaScript comparison `x < c` against a finite constant c. -/
def jlt : JNum → ℚ → Bool
  | JNum.val q, c => decide (q < c)
  | JNum.inf, _ => false
  | JNum.ninf, _ => true
  | JNum.nan, _ => false

/-- JavaScript `Math.min x c` for a finite constant c. -/
def jmin : JNum → ℚ → JNum
  | JNum.val q, c => JNum.val (min q c)
  | JNum.inf, c => JNum.val c
  | JNum.ninf, _ => JNum.ninf
  | JNum.nan, _ => JNum.nan

/-- JavaScript division `w / h` of finite rationals: `w / 0` gives
+Infinity for positive w, -Infinity for negative w, and NaN for `0 / 0`. -/
def jdiv (w h : ℚ) : JNum :=
  if h = 0 then (if 0 < w then JNum.inf else if w < 0 then JNum.ninf else JNum.nan)
  else JNum.val (w / h)

/-- Shape categories of the detector.  src/main.ts never emits `square`
(its DetectedShape type does not even list it); the part_000 variant does. -/
inductive ShapeType where
  | circle
  | triangle
  | rectangle
  | square
  | pentagon
  | star
  | polygon
deriving DecidableEq

/-- Classification decision of src/main.ts analyzeRegion (lines 206-225):
default polygon/0.6, then the if/else-if chain.  Circularity cutoff 0.6.
In the 4-vertex branch the source computes the aspect ratio and tests
`aspectRatio > 0.9 && aspectRatio < 1.1` but both branches of the
conditional produce "rectangle" (line 217). -/
def classifyMain (c : JNum) (v : ℕ) (w h : ℚ) : ShapeType × JNum :=
  if jgt c (3/5) = true ∧ v ≤ 5 then (ShapeType.circle, jmin c (19/20))
  else if v = 3 then (ShapeType.triangle, JNum.val (9/10))
  else if v = 4 then
    ((if jgt (jdiv w h) (9/10) = true ∧ jlt (jdiv w h) (11/10) = true
      then ShapeType.rectangle else ShapeType.rectangle), JNum.val (9/10))
  else if v = 5 then (ShapeType.pentagon, JNum.val (17/20))
  else if 10 ≤ v then (ShapeType.star, JNum.val (4/5))
  else (ShapeType.polygon, JNum.val (3/5))

/-- Classification decision of src/unnamed/part_000 analyzeRegion
(lines 132-154): circularity cutoff 0.75, square/rectangle distinction
in the 4-vertex branch, explicit final else producing polygon/0.6. -/
def classifyAlt (c : JNum) (v : ℕ) (w h : ℚ) : ShapeType × JNum :=
  if jgt c (3/4) = true ∧ v ≤ 5 then (ShapeType.circle, jmin c (19/20))
  else if v = 3 then (ShapeType.triangle, JNum.val (9/10))
  else if v = 4 then
    ((if jgt (jdiv w h) (9/10) = true ∧ jlt (jdiv w h) (11/10) = true
      then ShapeType.square else ShapeType.rectangle), JNum.val (9/10))
  else if v = 5 then (ShapeType.pentagon, JNum.val (17/20))
  else if 10 ≤ v then (ShapeType.star, JNum.val (4/5))
  else (ShapeType.polygon, JNum.val (3/5))

/-- Decision table exactly as the specification words it, for the
main variant (cutoff 0.6, square not supported): rules evaluated in
priority order circle, triangle, rectangle, pentagon, star, polygon.
The aspect ratio plays no role because square is not supported. -/
def classifySpecMain (c : JNum) (v : ℕ) (_w _h : ℚ) : ShapeType × JNum :=
  if jgt c (3/5) = true ∧ v ≤ 5 then (ShapeType.circle, jmin c (19/20))
  else if v = 3 then (ShapeType.triangle, JNum.val (9/10))
  else if v = 4 then (ShapeType.rectangle, JNum.val (9/10))
  else if v = 5 then (ShapeType.pentagon, JNum.val (17/20))
  else if 10 ≤ v then (ShapeType.star, JNum.val (4/5))
  else (ShapeType.polygon, JNum.val (3/5))

/-- Decision table exactly as the specification words it, for the
part_000 variant (cutoff 0.75, square supported): the square
refinement applies when the aspect ratio is defined (nonzero box
height) and within 0.1 of 1. -/
def classifySpecAlt (c : JNum) (v : ℕ) (w h : ℚ) : ShapeType × JNum :=
  if jgt c (3/4) = true ∧ v ≤ 5 then (ShapeType.circle, jmin c (19/20))
  else if v = 3 then (ShapeType.triangle, JNum.val (9/10))
  else if v = 4 then
    ((if h ≠ 0 ∧ |w / h - 1| < 1/10 then ShapeType.square else ShapeType.rectangle),
     JNum.val (9/10))
  else if v = 5 then (ShapeType.pentagon, JNum.val (17/20))
  else if 10 ≤ v then (ShapeType.star, JNum.val (4/5))
  else (ShapeType.polygon, JNum.val (3/5))

lemma jdiv_zero_gt_lt (w : ℚ) :
    ¬(jgt (jdiv w 0) (9/10) = true ∧ jlt (jdiv w 0) (11/10) = true) := by
  unfold jdiv
  rw [if_pos rfl]
  split_ifs <;> simp [jgt, jlt]

lemma aspect_interval (w h : ℚ) (hh : h ≠ 0) :
    (jgt (jdiv w h) (9/10) = true ∧ jlt (jdiv w h) (11/10) = true) ↔
      (h ≠ 0 ∧ |w / h - 1| < 1/10) := by
  unfold jdiv
  rw [if_neg hh]
  simp only [jgt, jlt, decide_eq_true_eq, abs_sub_lt_iff]
  constructor
  · rintro ⟨h1, h2⟩
    exact ⟨hh, by linarith, by linarith⟩
  · rintro ⟨-, h1, h2⟩
    exact ⟨by linarith, by linarith⟩

/-- C3: for every region, the classifier evaluates its decision rules in
priority order and returns exactly: circle with confidence
min(circularity, 0.95) when circularity exceeds the configured cutoff
(0.6 in src/main.ts, 0.75 in the part_000 variant) and the simplified
vertex count is at most 5; otherwise triangle with confidence 0.9 at
vertex count 3; otherwise rectangle (square where supported, when the
aspect ratio is within 0.1 of 1) with confidence 0.9 at vertex count 4;
otherwise pentagon with confidence 0.85 at vertex count 5; otherwise
star with confidence 0.8 at vertex count at least 10; otherwise generic
polygon with confidence 0.6.  Both classifier variants agree with the
decision table written from the specification. -/
theorem claim_C3_classifier_priority_order :
    ∀ (c : JNum) (v : ℕ) (w h : ℚ),
      classifyMain c v w h = classifySpecMain c v w h ∧
      classifyAlt c v w h = classifySpecAlt c v w h := by
  intro c v w h
  constructor
  · unfold classifyMain classifySpecMain
    simp only [ite_self]
  · unfold classifyAlt classifySpecAlt
    by_cases hh : h = 0
    · subst hh
      simp only [if_neg (jdiv_zero_gt_lt w)]
      have : ¬((0:ℚ) ≠ 0 ∧ |w / 0 - 1| < 1/10) := by simp
      simp only [if_neg this]
    · rw [if_congr (aspect_interval w h hh) rfl rfl]

/-- C9: a region with a zero-height bounding box that reaches the
4-vertex rule is classified rectangle with confidence 0.9 for every
box width: the aspect ratio is the JavaScript value w/0 (+Infinity,
-Infinity or NaN), the square test fails on it in the part_000 variant,
and in src/main.ts both branches of the test produce rectangle, so the
division by zero never influences the result. -/
theorem claim_C9_zero_height_is_rectangle :
    ∀ (c : JNum) (w : ℚ), jgt c (3/5) = false → jgt c (3/4) = false →
      classifyMain c 4 w 0 = (ShapeType.rectangle, JNum.val (9/10)) ∧
      classifyAlt c 4 w 0 = (ShapeType.rectangle, JNum.val (9/10)) := by
  intro c w hc1 hc2
  constructor
  · unfold classifyMain
    rw [if_neg (by simp [hc1]), if_neg (by norm_num), if_pos rfl]
    simp only [ite_self]
  · unfold classifyAlt
    rw [if_neg (by simp [hc2]), if_neg (by norm_num), if_pos rfl,
      if_neg (jdiv_zero_gt_lt w)]

/-- Witness for C9 at the concrete input circularity = NaN, width 7. -/
theorem claim_C9_witness :
    jgt JNum.nan (3/5) = false ∧ jgt JNum.nan (3/4) = false ∧
      classifyMain JNum.nan 4 7 0 = (ShapeType.rectangle, JNum.val (9/10)) ∧
      classifyAlt JNum.nan 4 7 0 = (ShapeType.rectangle, JNum.val (9/10)) :=
  ⟨rfl, rfl, (claim_C9_zero_height_is_rectangle JNum.nan 7 rfl rfl).1,
    (claim_C9_zero_height_is_rectangle JNum.nan 7 rfl rfl).2⟩

/-- C10: every classification outcome carries a finite confidence in the
closed interval [0.6, 0.95] (strictly tighter than the declared [0,1]):
the non-circle branches assign constants from {0.6, 0.8, 0.85, 0.9} and
the circle branch assigns min(circularity, 0.95) under the guard that
circularity exceeds the cutoff (0.6, resp. 0.75). -/
theorem claim_C10_confidence_range :
    ∀ (c : JNum) (v : ℕ) (w h : ℚ),
      (∃ q : ℚ, (classifyMain c v w h).2 = JNum.val q ∧ 3/5 ≤ q ∧ q ≤ 19/20) ∧
      (∃ q : ℚ, (classifyAlt c v w h).2 = JNum.val q ∧ 3/5 ≤ q ∧ q ≤ 19/20) := by
  intro c v w h
  constructor
  · unfold classifyMain
    simp only [ite_self]
    split_ifs with h1
    · rcases c with q | - | - | -
      · refine ⟨min q (19/20), rfl, le_min ?_ (by norm_num), min_le_right _ _⟩
        have : (3/5 : ℚ) < q := by
          have := h1.1
          simpa [jgt] using this
        linarith
      · exact ⟨19/20, rfl, by norm_num, le_refl _⟩
      · simp [jgt] at h1
      · simp [jgt] at h1
    all_goals exact ⟨_, rfl, by norm_num, by norm_num⟩
  · unfold classifyAlt
    split_ifs with h1
    · rcases c with q | - | - | -
      · refine ⟨min q (19/20), rfl, le_min ?_ (by norm_num), min_le_right _ _⟩
        have : (3/4 : ℚ) < q := by
          have := h1.1
          simpa [jgt] using this
        linarith
      · exact ⟨19/20, rfl, by norm_num, le_refl _⟩
      · simp [jgt] at h1
      · simp [jgt] at h1
    all_goals exact ⟨_, rfl, by norm_num, by norm_num⟩

/-! Ramer-Douglas-Peucker simplifier, src/main.ts lines 145-172 and the
identical copy in src/unnamed/part_000 lines 166-184.  Distances are
represented by their squares (the source only ever compares them). -/

/-- Squared Euclidean distance between two points. -/
def euclidSq (p a : ℚ × ℚ) : ℚ := (p.1 - a.1) * (p.1 - a.1) + (p.2 - a.2) * (p.2 - a.2)

/-- The helper lineDist of rdp, squared.  The source computes
`Math.abs((y2-y1)*x0-(x2-x1)*y0 + x2*y1 - y2*x1) / Math.hypot(y2-y1, x2-x1)`;
its square is num*num / den with den the squared length of the segment.  When the two
endpoints coincide, den = 0 and also num = 0, so the JavaScript division
is 0/0 = NaN, modelled as none. -/
def lineDistSq (p a b : ℚ × ℚ) : Option ℚ :=
  let num := (b.2 - a.2) * p.1 - (b.1 - a.1) * p.2 + b.1 * a.2 - b.2 * a.1
  let den := (b.2 - a.2) * (b.2 - a.2) + (b.1 - a.1) * (b.1 - a.1)
  if den = 0 then none else some (num * num / den)

/-- The maxDist/index scan of rdp (lines 155-163): strict improvements over
the running maximum (initially 0) record the value and its index (initially
0); a NaN distance (none) compares false and never updates.  The argument i
is the index of the head of the remaining list. -/
def scanMax : List (Option ℚ) → ℚ → ℕ → ℕ → ℚ × ℕ
  | [], m, idx, _ => (m, idx)
  | none :: ds, m, idx, i => scanMax ds m idx (i + 1)
  | some q :: ds, m, idx, i =>
    if m < q then scanMax ds q i (i + 1) else scanMax ds m idx (i + 1)

/-- The list of perpendicular (squared) distances of the interior points
(indices 1 .. length-2) to the line through the first and the last point:
this is the sequence of d values computed by the loop of rdp. -/
def interDists (pts : List (ℚ × ℚ)) : List (Option ℚ) :=
  ((pts.drop 1).dropLast).map (fun p => lineDistSq p (pts.headD (0, 0)) (pts.getLastD (0, 0)))

/-- rdp with explicit recursion fuel.  The source recursion is not
structurally bounded (for a negative tolerance it diverges, see the C4
counterexample), so the model returns none when fuel runs out.  The
comparison maxDist > epsilon with nonnegative maxDist is rendered on
squares as: epsilon < 0, or maxSq > epsilon^2. -/
def rdpF : ℕ → List (ℚ × ℚ) → ℚ → Option (List (ℚ × ℚ))
  | 0, _, _ => none
  | fuel+1, pts, eps =>
    if pts.length < 3 then some pts
    else
      if eps < 0 ∨ eps * eps < (scanMax (interDists pts) 0 0 1).1 then do
        let left ← rdpF fuel (pts.take ((scanMax (interDists pts) 0 0 1).2 + 1)) eps
        let right ← rdpF fuel (pts.drop (scanMax (interDists pts) 0 0 1).2) eps
        some (left.dropLast ++ right)
      else some [pts.headD (0, 0), pts.getLastD (0, 0)]

/-- rdp with enough fuel for every terminating run: when the tolerance is
nonnegative, the recursion depth is bounded by the list length. -/
def rdp (pts : List (ℚ × ℚ)) (eps : ℚ) : Option (List (ℚ × ℚ)) :=
  rdpF (pts.length + 1) pts eps

/-- Termination predicate for the fueled model: some fuel yields a result. -/
def rdpTerminates (pts : List (ℚ × ℚ)) (eps : ℚ) : Prop :=
  ∃ (fuel : ℕ) (r : List (ℚ × ℚ)), rdpF fuel pts eps = some r

/-- Maximum of the defined (non-NaN) entries of a list of optional
rationals, none when no entry is defined. -/
def osup : List (Option ℚ) → Option ℚ
  | [] => none
  | none :: ds => osup ds
  | some q :: ds =>
    match osup ds with
    | none => some q
    | some s => some (max q s)

/-- Value computed by the scan: the maximum of m and all defined entries. -/
def maxF (ds : List (Option ℚ)) (m : ℚ) : ℚ :=
  match osup ds with
  | none => m
  | some s => max m s

lemma le_maxF (ds : List (Option ℚ)) (m : ℚ) : m ≤ maxF ds m := by
  cases h : osup ds <;> simp [maxF, h]

lemma maxF_cons_none (ds : List (Option ℚ)) (m : ℚ) :
    maxF (none :: ds) m = maxF ds m := rfl

lemma maxF_cons_some (q : ℚ) (ds : List (Option ℚ)) (m : ℚ) :
    maxF (some q :: ds) m = maxF ds (max m q) := by
  cases h : osup ds <;> simp [maxF, osup, h, max_assoc]

lemma osup_mem {ds : List (Option ℚ)} : ∀ {s : ℚ}, osup ds = some s → some s ∈ ds := by
  induction ds with
  | nil => intro s h; simp [osup] at h
  | cons d ds ih =>
    intro s h
    match d with
    | none =>
      rw [show osup (none :: ds) = osup ds from rfl] at h
      exact List.mem_cons_of_mem _ (ih h)
    | some q =>
      rw [show osup (some q :: ds)
            = (match osup ds with
               | none => some q
               | some s => some (max q s)) from rfl] at h
      cases h0 : osup ds with
      | none =>
        rw [h0] at h
        cases h
        exact List.mem_cons_self _ _
      | some s0 =>
        rw [h0] at h
        cases h
        rcases max_choice q s0 with hc | hc
        · rw [hc]
          exact List.mem_cons_self _ _
        · rw [hc]
          exact List.mem_cons_of_mem _ (ih h0)

lemma maxF_pos_mem {ds : List (Option ℚ)} (h : 0 < maxF ds 0) :
    some (maxF ds 0) ∈ ds := by
  cases h0 : osup ds with
  | none => simp [maxF, h0] at h
  | some s =>
    have hv : maxF ds 0 = s := by
      have hs : 0 < s := by
        by_contra hs
        push_neg at hs
        simp [maxF, h0, max_eq_left hs] at h
      simp [maxF, h0, max_eq_right hs.le]
    rw [hv]
    exact osup_mem h0

lemma findIdx_maxF_lt {ds : List (Option ℚ)} (h : 0 < maxF ds 0) :
    ds.findIdx (fun d => decide (d = some (maxF ds 0))) < ds.length :=
  List.findIdx_lt_length_of_exists ⟨_, maxF_pos_mem h, by simp⟩

lemma findIdx_cons_ne {d : Option ℚ} {p : Option ℚ → Bool} (hd : p d = false)
    (ds : List (Option ℚ)) : (d :: ds).findIdx p = ds.findIdx p + 1 := by
  simp [List.findIdx_cons, hd]

/-- Characterization of the maxDist/index scan: the value is the maximum
of the start value and all defined entries, and when some entry exceeds
the start value the recorded index is that of the first entry attaining
the maximum. -/
lemma scanMax_eq (ds : List (Option ℚ)) : ∀ (m : ℚ) (idx i : ℕ),
    scanMax ds m idx i =
      (maxF ds m,
       if m < maxF ds m
       then i + ds.findIdx (fun d => decide (d = some (maxF ds m)))
       else idx) := by
  induction ds with
  | nil =>
    intro m idx i
    simp [scanMax, maxF, osup]
  | cons d ds ih =>
    intro m idx i
    match d with
    | none =>
      rw [maxF_cons_none,
        show scanMax (none :: ds) m idx i = scanMax ds m idx (i + 1) from rfl, ih]
      by_cases h : m < maxF ds m
      · rw [if_pos h, if_pos h, findIdx_cons_ne (by simp) ds]
        simp only [Prod.mk.injEq]
        exact ⟨trivial, by omega⟩
      · rw [if_neg h, if_neg h]
    | some q =>
      rw [maxF_cons_some,
        show scanMax (some q :: ds) m idx i
            = if m < q then scanMax ds q i (i + 1) else scanMax ds m idx (i + 1)
          from rfl]
      by_cases hmq : m < q
      · rw [if_pos hmq, max_eq_right hmq.le, ih]
        have hM : m < maxF ds q := lt_of_lt_of_le hmq (le_maxF ds q)
        rw [if_pos hM]
        rcases eq_or_lt_of_le (le_maxF ds q) with hqM | hqM
        · rw [if_neg (by rw [← hqM]; exact lt_irrefl q), ← hqM,
            List.findIdx_cons]
          simp
        · rw [if_pos hqM, findIdx_cons_ne (by simpa using ne_of_lt hqM) ds]
          simp only [Prod.mk.injEq]
          exact ⟨trivial, by omega⟩
      · rw [if_neg hmq, max_eq_left (not_lt.mp hmq), ih]
        by_cases hM : m < maxF ds m
        · have hq : q ≠ maxF ds m := ne_of_lt (lt_of_le_of_lt (not_lt.mp hmq) hM)
          rw [if_pos hM, if_pos hM, findIdx_cons_ne (by simpa using hq) ds]
          simp only [Prod.mk.injEq]
          exact ⟨trivial, by omega⟩
        · rw [if_neg hM, if_neg hM]

/-- Index at which the specification splits the sequence: one past the
position of the first interior distance attaining the maximum. -/
def splitIdx (pts : List (ℚ × ℚ)) : ℕ :=
  (interDists pts).findIdx (fun d => decide (d = some (maxF (interDists pts) 0))) + 1

lemma interDists_length (pts : List (ℚ × ℚ)) :
    (interDists pts).length = pts.length - 1 - 1 := by
  simp [interDists]

lemma splitIdx_bounds (pts : List (ℚ × ℚ)) (h3 : 3 ≤ pts.length)
    (hpos : 0 < maxF (interDists pts) 0) :
    1 ≤ splitIdx pts ∧ splitIdx pts ≤ pts.length - 2 := by
  have hfi := findIdx_maxF_lt hpos
  have hlen := interDists_length pts
  unfold splitIdx
  omega

/-- The Ramer-Douglas-Peucker simplifier written from the words of the
specification, as a total function: fewer than 3 points are returned
unchanged; otherwise, when the maximum squared perpendicular distance of
the interior points strictly exceeds the squared nonnegative tolerance,
the list is split at the first interior point attaining that maximum,
the two halves are simplified recursively and concatenated dropping the
duplicated split point; otherwise only the first and last points remain. -/
def rdpSpec (pts : List (ℚ × ℚ)) (eps : ℚ) : List (ℚ × ℚ) :=
  if h3 : pts.length < 3 then pts
  else
    if hm : 0 ≤ eps ∧ eps * eps < maxF (interDists pts) 0 then
      (rdpSpec (pts.take (splitIdx pts + 1)) eps).dropLast ++
        rdpSpec (pts.drop (splitIdx pts)) eps
    else [pts.headD (0, 0), pts.getLastD (0, 0)]
termination_by pts.length
decreasing_by
  · have hpos : 0 < maxF (interDists pts) 0 :=
      lt_of_le_of_lt (mul_nonneg hm.1 hm.1) hm.2
    have hb := splitIdx_bounds pts (by omega) hpos
    simp only [List.length_take]
    omega
  · have hpos : 0 < maxF (interDists pts) 0 :=
      lt_of_le_of_lt (mul_nonneg hm.1 hm.1) hm.2
    have hb := splitIdx_bounds pts (by omega) hpos
    simp only [List.length_drop]
    omega

/-- With a nonnegative tolerance, the fueled code model is total (fuel
exceeding the list length suffices) and computes exactly the function
described by the specification. -/
lemma rdpF_eq_spec : ∀ (fuel : ℕ) (pts : List (ℚ × ℚ)) (eps : ℚ),
    0 ≤ eps → pts.length < fuel → rdpF fuel pts eps = some (rdpSpec pts eps) := by
  intro fuel
  induction fuel with
  | zero => intro pts eps _ h; exact absurd h (Nat.not_lt_zero _)
  | succ fuel ih =>
    intro pts eps heps hlen
    rw [rdpSpec]
    by_cases h3 : pts.length < 3
    · rw [dif_pos h3]
      simp [rdpF, h3]
    · rw [dif_neg h3]
      have hsc := scanMax_eq (interDists pts) 0 0 1
      have h1 : (scanMax (interDists pts) 0 0 1).1 = maxF (interDists pts) 0 := by
        rw [hsc]
      by_cases hm : eps * eps < maxF (interDists pts) 0
      · have hpos : 0 < maxF (interDists pts) 0 :=
          lt_of_le_of_lt (mul_nonneg heps heps) hm
        have h2 : (scanMax (interDists pts) 0 0 1).2 = splitIdx pts := by
          rw [hsc]
          simp only
          rw [if_pos hpos]
          unfold splitIdx
          omega
        rw [dif_pos ⟨heps, hm⟩]
        have hb := splitIdx_bounds pts (by omega) hpos
        have hL := ih (pts.take (splitIdx pts + 1)) eps heps
          (by simp only [List.length_take]; omega)
        have hR := ih (pts.drop (splitIdx pts)) eps heps
          (by simp only [List.length_drop]; omega)
        simp only [rdpF]
        rw [if_neg h3, h1, h2, if_pos (Or.inr hm), hL, hR]
        simp
      · rw [dif_neg (fun hc => hm hc.2)]
        have hcond : ¬(eps < 0 ∨ eps * eps < (scanMax (interDists pts) 0 0 1).1) := by
          rw [h1]
          exact not_or.mpr ⟨not_lt.mpr heps, hm⟩
        simp only [rdpF]
        rw [if_neg h3, if_neg hcond]

/-- C4 (amended): for every point sequence and every nonnegative tolerance
(the pipeline always passes epsilon = 0.02 times the point count, which is
nonnegative), rdp terminates and returns exactly the result described by
the specification recursion rdpSpec: a sequence of fewer than 3 points is
returned unchanged; otherwise the first interior point of maximum
perpendicular distance to the line through the first and last points is
located, and either (when that maximum exceeds the tolerance) the two
sub-sequences split there are simplified recursively and concatenated
dropping the duplicated split point, or the sequence collapses to exactly
its first and last points.  For negative tolerances the source diverges,
see the counterexample. -/
theorem claim_C4_rdp_follows_spec (pts : List (ℚ × ℚ)) (eps : ℚ) (heps : 0 ≤ eps) :
    rdp pts eps = some (rdpSpec pts eps) :=
  rdpF_eq_spec (pts.length + 1) pts eps heps (Nat.lt_succ_self _)

/-- Witness for C4 at a concrete three-point input with tolerance 0: the
middle point (1,1) lies at squared distance 1 from the baseline, 1 exceeds
0, so the split keeps all three points. -/
theorem claim_C4_witness :
    (0 ≤ (0:ℚ)) ∧
      rdp [((0:ℚ), (0:ℚ)), (1, 1), (2, 0)] 0
        = some (rdpSpec [((0:ℚ), (0:ℚ)), (1, 1), (2, 0)] 0) :=
  ⟨le_refl 0, claim_C4_rdp_follows_spec _ 0 (le_refl 0)⟩

lemma rdpF_diverges_neg : ∀ fuel : ℕ,
    rdpF fuel [((0:ℚ), (0:ℚ)), (1, 0), (2, 0)] (-1) = none := by
  intro fuel
  induction fuel with
  | zero => rfl
  | succ fuel ih =>
    have h1 : interDists [((0:ℚ), (0:ℚ)), (1, 0), (2, 0)] = [some 0] := by
      norm_num [interDists, lineDistSq]
    have hsc : scanMax (interDists [((0:ℚ), (0:ℚ)), (1, 0), (2, 0)]) 0 0 1 = (0, 0) := by
      rw [h1]
      decide
    have hstep : rdpF (fuel + 1) [((0:ℚ), (0:ℚ)), (1, 0), (2, 0)] (-1)
        = (do
            let left ← rdpF fuel [((0:ℚ), (0:ℚ))] (-1)
            let right ← rdpF fuel [((0:ℚ), (0:ℚ)), (1, 0), (2, 0)] (-1)
            some (left.dropLast ++ right)) := by
      simp only [rdpF]
      rw [if_neg (by norm_num), hsc]
      rw [if_pos (Or.inl (by norm_num))]
      rfl
    rw [hstep]
    rcases h0 : rdpF fuel [((0:ℚ), (0:ℚ))] (-1) with - | l
    · rfl
    · rw [ih]
      rfl

/-- C4 counterexample: with tolerance -1 on three collinear points the
source recursion never terminates.  The maximum distance is 0, which still
exceeds the negative tolerance, the split index stays at its initial value
0, and the right recursive call receives the entire list again.  No amount
of fuel produces a result, refuting the claim for arbitrary tolerances. -/
theorem claim_C4_counterexample :
    ¬ rdpTerminates [((0:ℚ), (0:ℚ)), (1, 0), (2, 0)] (-1) := by
  rintro ⟨fuel, r, h⟩
  rw [rdpF_diverges_neg fuel] at h
  exact Option.noConfusion h

/-- C8 counterexample: for the point p = (0,1) and identical segment
endpoints a = b = (0,0), the perpendicular-distance helper of rdp divides
0 by 0 and produces NaN (modelled none); it does not return the Euclidean
distance from p to the shared endpoint (whose square is 1). -/
theorem claim_C8_counterexample :
    lineDistSq ((0:ℚ), (1:ℚ)) ((0:ℚ), (0:ℚ)) ((0:ℚ), (0:ℚ)) = none ∧
      lineDistSq ((0:ℚ), (1:ℚ)) ((0:ℚ), (0:ℚ)) ((0:ℚ), (0:ℚ))
        ≠ some (euclidSq ((0:ℚ), (1:ℚ)) ((0:ℚ), (0:ℚ))) := by
  constructor
  · norm_num [lineDistSq]
  · intro h
    rw [show lineDistSq ((0:ℚ), (1:ℚ)) ((0:ℚ), (0:ℚ)) ((0:ℚ), (0:ℚ)) = none from by
      norm_num [lineDistSq]] at h
    exact Option.noConfusion h

/-- C8 (amended): for every point p and every degenerate segment with
identical endpoints a = b, lineDist computes numerator 0 and denominator
0, so the JavaScript division yields NaN (modelled none) rather than the
Euclidean distance to the shared endpoint; inside rdp such a NaN distance
compares false and never updates the running maximum. -/
theorem claim_C8_degenerate_is_nan (p a : ℚ × ℚ) :
    lineDistSq p a a = none := by
  unfold lineDistSq
  simp

/-! Contour ordering, src/main.ts sortRegionPoints (lines 136-140): the
points are sorted by Math.atan2(y - cy, x - cx) ascending around the
centroid (cx, cy); JavaScript Array.sort with a consistent comparator is
stable, realized here by insertion sort.  Math.atan2 cannot be computed
exactly over the rationals, but its ORDER can: atan2(dy, dx) takes values
in (-pi, pi], and
  dy < 0              gives a value in (-pi, 0)    (class 0),
  dy = 0 and dx >= 0  gives exactly 0              (class 1, also atan2(0,0) = 0),
  dy > 0              gives a value in (0, pi)     (class 2),
  dy = 0 and dx < 0   gives exactly pi             (class 3);
inside classes 0 and 2 the cotangent dx/dy is strictly decreasing in the
angle (the derivative of cot is negative on (-pi,0) and on (0,pi)), so
ascending atan2 order is exactly ascending lexicographic order of the key
(class, -(dx/dy)). -/

/-- A pixel coordinate pair as a rational point. -/
def qp (p : ℕ × ℕ) : ℚ × ℚ := ((p.1 : ℚ), (p.2 : ℚ))

/-- Lexicographic key (half-plane class, negated cotangent) whose
ascending order coincides with ascending atan2(p.2 - cy, p.1 - cx). -/
def angKey (cx cy : ℚ) (p : ℕ × ℕ) : ℕ × ℚ :=
  if (p.2 : ℚ) - cy < 0 then (0, -(((p.1 : ℚ) - cx) / ((p.2 : ℚ) - cy)))
  else if (p.2 : ℚ) - cy = 0 ∧ 0 ≤ (p.1 : ℚ) - cx then (1, 0)
  else if 0 < (p.2 : ℚ) - cy then (2, -(((p.1 : ℚ) - cx) / ((p.2 : ℚ) - cy)))
  else (3, 0)

/-- Order by angle around (cx, cy): the comparator of the sort. -/
def angLe (cx cy : ℚ) (a b : ℕ × ℕ) : Prop :=
  (angKey cx cy a).1 < (angKey cx cy b).1 ∨
    ((angKey cx cy a).1 = (angKey cx cy b).1 ∧ (angKey cx cy a).2 ≤ (angKey cx cy b).2)

instance angLe.instDecidable (cx cy : ℚ) : DecidableRel (angLe cx cy) := fun a b => by
  unfold angLe
  infer_instance

instance angLe.instIsTotal (cx cy : ℚ) : IsTotal (ℕ × ℕ) (angLe cx cy) := by
  constructor
  intro a b
  unfold angLe
  rcases lt_trichotomy (angKey cx cy a).1 (angKey cx cy b).1 with h | h | h
  · exact Or.inl (Or.inl h)
  · rcases le_total (angKey cx cy a).2 (angKey cx cy b).2 with h2 | h2
    · exact Or.inl (Or.inr ⟨h, h2⟩)
    · exact Or.inr (Or.inr ⟨h.symm, h2⟩)
  · exact Or.inr (Or.inl h)

instance angLe.instIsTrans (cx cy : ℚ) : IsTrans (ℕ × ℕ) (angLe cx cy) := by
  constructor
  intro a b c hab hbc
  rcases hab with h1 | ⟨h1, h1q⟩ <;> rcases hbc with h2 | ⟨h2, h2q⟩
  · exact Or.inl (h1.trans h2)
  · exact Or.inl (lt_of_lt_of_le h1 (le_of_eq h2))
  · exact Or.inl (lt_of_le_of_lt (le_of_eq h1) h2)
  · exact Or.inr ⟨h1.trans h2, h1q.trans h2q⟩

/-- Centroid x coordinate: mean of the x values (lines 137). -/
def centroidX (pts : List (ℕ × ℕ)) : ℚ :=
  (pts.map (fun p => (p.1 : ℚ))).sum / pts.length

/-- Centroid y coordinate: mean of the y values (line 138). -/
def centroidY (pts : List (ℕ × ℕ)) : ℚ :=
  (pts.map (fun p => (p.2 : ℚ))).sum / pts.length

/-- sortRegionPoints of src/main.ts (lines 136-140): stable sort of the
region points by angle around the centroid. -/
def sortRegionPoints (pts : List (ℕ × ℕ)) : List (ℕ × ℕ) :=
  List.insertionSort (angLe (centroidX pts) (centroidY pts)) pts

/-- The closed loop of squared step lengths of a point sequence:
consecutive squared distances, including the wrap-around step from the
last point back to the first, matching the (i+1) mod n indexing of the
perimeter loop. -/
def loopSteps (l : List (ℕ × ℕ)) : List ℚ :=
  (l.zip (l.rotate 1)).map (fun s => euclidSq (qp s.1) (qp s.2))

/-- Squared perimeter steps in src/main.ts (lines 190-197): over the
angle-ordered contour. -/
def perimStepsMain (pts : List (ℕ × ℕ)) : List ℚ :=
  loopSteps (sortRegionPoints pts)

/-- Squared perimeter steps in src/unnamed/part_000 (lines 118-124): over
the raw region points in flood-fill discovery order, with no sorting. -/
def perimStepsAlt (pts : List (ℕ × ℕ)) : List ℚ :=
  loopSteps pts

/-- C7 (amended): in src/main.ts the perimeter used for circularity sums
the Euclidean steps between consecutive points of the angle-ordered
contour and closes the loop from the last ordered point back to the
first: the sequence being summed is a permutation of the region points
that is sorted by the atan2 order around the centroid, and its steps are
the closed-loop steps.  In the part_000 variant the perimeter instead
sums the raw flood-fill discovery order, see the counterexample. -/
theorem claim_C7_perimeter_over_sorted_contour (pts : List (ℕ × ℕ)) :
    (sortRegionPoints pts).Perm pts ∧
      List.Sorted (angLe (centroidX pts) (centroidY pts)) (sortRegionPoints pts) ∧
      perimStepsMain pts = loopSteps (sortRegionPoints pts) :=
  ⟨List.perm_insertionSort _ pts, List.sorted_insertionSort _ pts, rfl⟩

/-- C7 counterexample: for the four corners of a 4 x 3 rectangle listed
in the discovery order [(0,0),(4,3),(4,0),(0,3)], the part_000 variant
sums the raw order with squared steps [25, 9, 25, 9] (two diagonals),
while the angle-ordered contour is [(0,0),(4,0),(4,3),(0,3)] with squared
steps [16, 9, 16, 9]; the step sequences and the resulting perimeters
(16 versus 14) differ, so the perimeter is not computed over the
angle-ordered contour there. -/
theorem claim_C7_counterexample :
    perimStepsAlt [(0,0), (4,3), (4,0), (0,3)]
        ≠ perimStepsMain [(0,0), (4,3), (4,0), (0,3)] ∧
      perimStepsAlt [(0,0), (4,3), (4,0), (0,3)] = [25, 9, 25, 9] ∧
      perimStepsMain [(0,0), (4,3), (4,0), (0,3)] = [16, 9, 16, 9] := by
  have hsort : sortRegionPoints [(0,0), (4,3), (4,0), (0,3)]
      = [(0,0), (4,0), (4,3), (0,3)] := by
    unfold sortRegionPoints
    norm_num [centroidX, centroidY, List.insertionSort, List.orderedInsert,
      angLe, angKey]
  have halt : perimStepsAlt [(0,0), (4,3), (4,0), (0,3)] = [25, 9, 25, 9] := by
    unfold perimStepsAlt loopSteps
    norm_num [List.rotate, euclidSq, qp]
  have hmain : perimStepsMain [(0,0), (4,3), (4,0), (0,3)] = [16, 9, 16, 9] := by
    unfold perimStepsMain
    rw [hsort]
    unfold loopSteps
    norm_num [List.rotate, euclidSq, qp]
  refine ⟨?_, halt, hmain⟩
  rw [halt, hmain]
  norm_num

/-! Region finding, src/main.ts steps 2, 3 and 7 (lines 74-131, 239-246):
Sobel edge map, iterative stack-based flood fill with 8-connectivity,
row-major outer scan. -/

/-- A binary edge map with its dimensions: edge x y tells whether the
pixel at column x, row y is an edge pixel. -/
structure EdgeMap where
  width : ℕ
  height : ℕ
  edge : ℕ → ℕ → Bool

/-- The eight neighbor offsets, in source order (lines 106-115). -/
def directions : List (ℤ × ℤ) :=
  [(1, 0), (-1, 0), (0, 1), (0, -1), (1, 1), (1, -1), (-1, 1), (-1, -1)]

/-- inBounds of the source (line 116), on the signed coordinates that a
flood-fill stack entry can carry. -/
def inBoundsZ (em : EdgeMap) (c : ℤ × ℤ) : Prop :=
  0 ≤ c.1 ∧ c.1 < (em.width : ℤ) ∧ 0 ≤ c.2 ∧ c.2 < (em.height : ℤ)

instance inBoundsZ.instDecidable (em : EdgeMap) (c : ℤ × ℤ) :
    Decidable (inBoundsZ em c) := by
  unfold inBoundsZ
  infer_instance

/-- An in-bounds stack entry as a pixel coordinate. -/
def toPix (c : ℤ × ℤ) : ℕ × ℕ := (c.1.toNat, c.2.toNat)

/-- All pixel coordinates of the image. -/
def cellBox (em : EdgeMap) : Finset (ℕ × ℕ) :=
  Finset.range em.width ×ˢ Finset.range em.height

/-- The edge pixels of the image. -/
def edgeCells (em : EdgeMap) : Finset (ℕ × ℕ) :=
  (cellBox em).filter (fun p => em.edge p.1 p.2 = true)

/-- The while loop of floodFill (lines 118-131): pop the top of the
stack; skip it when out of bounds, already visited, or not an edge pixel;
otherwise mark it visited, collect it, and push its eight neighbors.  The
source pushes the neighbors in directions order, so they pop in reverse
order: the reversed neighbor list goes to the head of the list modelling
the stack.  Terminates because every marking step shrinks the set of
unvisited pixels and every skipping step shrinks the stack. -/
def floodLoop (em : EdgeMap) (stack : List (ℤ × ℤ)) (visited : Finset (ℕ × ℕ)) :
    List (ℕ × ℕ) × Finset (ℕ × ℕ) :=
  match stack with
  | [] => ([], visited)
  | c :: rest =>
    if h : inBoundsZ em c ∧ toPix c ∉ visited ∧ em.edge (toPix c).1 (toPix c).2 = true then
      let r := floodLoop em
        ((directions.map (fun d => (c.1 + d.1, c.2 + d.2))).reverse ++ rest)
        (insert (toPix c) visited)
      (toPix c :: r.1, r.2)
    else
      floodLoop em rest visited
termination_by ((cellBox em \ visited).card, stack.length)
decreasing_by
  · apply Prod.Lex.left
    rw [Finset.sdiff_insert]
    refine Finset.card_erase_lt_of_mem (Finset.mem_sdiff.mpr ⟨?_, h.2.1⟩)
    obtain ⟨h1, h2, h3, h4⟩ := h.1
    simp only [cellBox, Finset.mem_product, Finset.mem_range, toPix]
    omega
  · apply Prod.Lex.right
    simp

/-- floodFill as called by the scan, from an in-bounds seed. -/
def floodFill (em : EdgeMap) (x y : ℕ) (visited : Finset (ℕ × ℕ)) :
    List (ℕ × ℕ) × Finset (ℕ × ℕ) :=
  floodLoop em [((x : ℤ), (y : ℤ))] visited

/-- floodFill collects duplicate-free, previously unvisited edge pixels,
and returns the visited set enlarged by exactly the collected pixels. -/
lemma floodLoop_spec (em : EdgeMap) :
    ∀ (stack : List (ℤ × ℤ)) (visited : Finset (ℕ × ℕ)),
      (floodLoop em stack visited).2
          = visited ∪ (floodLoop em stack visited).1.toFinset ∧
        (floodLoop em stack visited).1.Nodup ∧
        ∀ p ∈ (floodLoop em stack visited).1, p ∉ visited ∧ p ∈ edgeCells em := by
  intro stack visited
  induction stack, visited using floodLoop.induct em with
  | case1 visited =>
    rw [floodLoop]
    simp
  | case2 c rest visited h ih =>
    rw [floodLoop]
    simp only [dif_pos h]
    obtain ⟨ih1, ih2, ih3⟩ := ih
    refine ⟨?_, ?_, ?_⟩
    · rw [ih1]
      simp only [List.toFinset_cons]
      rw [Finset.union_insert, Finset.insert_union]
    · exact List.nodup_cons.mpr
        ⟨fun hmem => ((ih3 _ hmem).1 (Finset.mem_insert_self _ _)), ih2⟩
    · intro p hp
      rcases List.mem_cons.mp hp with hp | hp
      · subst hp
        refine ⟨h.2.1, ?_⟩
        obtain ⟨h1, h2, h3, h4⟩ := h.1
        simp only [edgeCells, Finset.mem_filter, cellBox, Finset.mem_product,
          Finset.mem_range, toPix]
        refine ⟨⟨?_, ?_⟩, h.2.2⟩ <;> omega
      · obtain ⟨hnv, he⟩ := ih3 p hp
        exact ⟨fun hv => hnv (Finset.mem_insert_of_mem hv), he⟩
  | case3 c rest visited h ih =>
    rw [floodLoop]
    simp only [dif_neg h]
    exact ih

/-- The row-major scan of step 7 (lines 239-246): on an unvisited edge
pixel, flood fill from it and collect the region.  The minimum-size
filter of the source (length > 10) is applied afterwards in detectShapes;
it has no effect on the visited set. -/
def scanLoop (em : EdgeMap) :
    List (ℕ × ℕ) → Finset (ℕ × ℕ) → List (List (ℕ × ℕ)) →
      List (List (ℕ × ℕ)) × Finset (ℕ × ℕ)
  | [], v, regs => (regs, v)
  | c :: cs, v, regs =>
    if c ∉ v ∧ em.edge c.1 c.2 = true then
      scanLoop em cs (floodFill em c.1 c.2 v).2 (regs ++ [(floodFill em c.1 c.2 v).1])
    else
      scanLoop em cs v regs

/-- Row-major scan coordinates: (x, y) for y in 0..height, x in 0..width. -/
def scanCoords (em : EdgeMap) : List (ℕ × ℕ) :=
  (List.range em.height).flatMap (fun y => (List.range em.width).map (fun x => (x, y)))

/-- All regions discovered by the scan, in discovery order. -/
def regionsOf (em : EdgeMap) : List (List (ℕ × ℕ)) :=
  (scanLoop em (scanCoords em) ∅ []).1

/-- Invariant carried by the scan: all collected regions consist of edge
pixels inside the visited set, are duplicate-free, pairwise disjoint, and
their total size is bounded by the number of visited edge pixels. -/
def ScanInv (em : EdgeMap) (v : Finset (ℕ × ℕ)) (regs : List (List (ℕ × ℕ))) : Prop :=
  (∀ r ∈ regs, r.Nodup) ∧
    (∀ r ∈ regs, ∀ p ∈ r, p ∈ edgeCells em ∧ p ∈ v) ∧
    regs.Pairwise (fun r s => ∀ p ∈ r, p ∉ s) ∧
    (regs.map List.length).sum ≤ (edgeCells em ∩ v).card

lemma scanInv_step (em : EdgeMap) (c : ℕ × ℕ) (v : Finset (ℕ × ℕ))
    (regs : List (List (ℕ × ℕ))) (hinv : ScanInv em v regs) :
    ScanInv em (floodFill em c.1 c.2 v).2 (regs ++ [(floodFill em c.1 c.2 v).1]) := by
  obtain ⟨i1, i2, i3, i4⟩ := hinv
  obtain ⟨f1, f2, f3⟩ := floodLoop_spec em [((c.1 : ℤ), (c.2 : ℤ))] v
  have hsubV : v ⊆ (floodFill em c.1 c.2 v).2 := by
    rw [show (floodFill em c.1 c.2 v).2 = (floodLoop em [((c.1 : ℤ), (c.2 : ℤ))] v).2
        from rfl, f1]
    exact Finset.subset_union_left
  have hTedge : (floodFill em c.1 c.2 v).1.toFinset ⊆ edgeCells em := by
    intro p hp
    exact (f3 p (List.mem_toFinset.mp hp)).2
  have hTnv : ∀ p ∈ (floodFill em c.1 c.2 v).1.toFinset, p ∉ v := by
    intro p hp
    exact (f3 p (List.mem_toFinset.mp hp)).1
  refine ⟨?_, ?_, ?_, ?_⟩
  · intro r hr
    rcases List.mem_append.mp hr with hr | hr
    · exact i1 r hr
    · rw [List.mem_singleton.mp hr]
      exact f2
  · intro r hr p hp
    rcases List.mem_append.mp hr with hr | hr
    · exact ⟨(i2 r hr p hp).1, hsubV (i2 r hr p hp).2⟩
    · rw [List.mem_singleton.mp hr] at hp
      refine ⟨(f3 p hp).2, ?_⟩
      rw [show (floodFill em c.1 c.2 v).2
          = (floodLoop em [((c.1 : ℤ), (c.2 : ℤ))] v).2 from rfl, f1]
      exact Finset.mem_union_right _ (List.mem_toFinset.mpr hp)
  · rw [List.pairwise_append]
    refine ⟨i3, List.pairwise_singleton _ _, ?_⟩
    intro r hr s hs p hp
    rw [List.mem_singleton.mp hs]
    intro hmem
    exact (f3 p hmem).1 ((i2 r hr p hp).2)
  · rw [List.map_append, List.sum_append]
    simp only [List.map_cons, List.map_nil, List.sum_cons, List.sum_nil, add_zero]
    have hv2 : (floodFill em c.1 c.2 v).2 = v ∪ (floodFill em c.1 c.2 v).1.toFinset := f1
    rw [hv2, Finset.inter_union_distrib_left,
      Finset.inter_eq_right.mpr hTedge,
      Finset.card_union_of_disjoint (Finset.disjoint_left.mpr
        (fun a ha hT => hTnv a hT (Finset.mem_inter.mp ha).2)),
      List.toFinset_card_of_nodup (show (floodFill em c.1 c.2 v).1.Nodup from f2)]
    omega

/-- Scanning preserves the invariant. -/
lemma scanLoop_inv (em : EdgeMap) :
    ∀ (cs : List (ℕ × ℕ)) (v : Finset (ℕ × ℕ)) (regs : List (List (ℕ × ℕ))),
      ScanInv em v regs →
        ScanInv em (scanLoop em cs v regs).2 (scanLoop em cs v regs).1 := by
  intro cs
  induction cs with
  | nil =>
    intro v regs hinv
    simpa [scanLoop] using hinv
  | cons c cs ih =>
    intro v regs hinv
    by_cases hc : c ∉ v ∧ em.edge c.1 c.2 = true
    · rw [scanLoop, if_pos hc]
      exact ih _ _ (scanInv_step em c v regs hinv)
    · rw [scanLoop, if_neg hc]
      exact ih _ _ hinv

/-! The Sobel pipeline that produces the edge map, src/main.ts steps 1-2
(lines 57-99). -/

/-- Read a byte of the flat RGBA buffer: an out-of-range JavaScript read
gives undefined, which behaves as NaN in arithmetic; modelled as none. -/
def dataAt (data : List ℚ) (i : ℕ) : Option ℚ := data.get? i

/-- Step 1 (lines 60-69): grayscale intensity of pixel (x, y) with the
BT.601 weights; none models NaN from out-of-range reads. -/
def grayAt (w : ℕ) (data : List ℚ) (x y : ℕ) : Option ℚ := do
  let r ← dataAt data ((y * w + x) * 4)
  let g ← dataAt data ((y * w + x) * 4 + 1)
  let b ← dataAt data ((y * w + x) * 4 + 2)
  pure (299/1000 * r + 587/1000 * g + 114/1000 * b)

/-- Sobel x kernel entry at row ky, column kx (0-based; line 75-79). -/
def sobelX : ℕ → ℕ → ℚ
  | 0, 0 => -1
  | 0, 1 => 0
  | 0, 2 => 1
  | 1, 0 => -2
  | 1, 1 => 0
  | 1, 2 => 2
  | 2, 0 => -1
  | 2, 1 => 0
  | 2, 2 => 1
  | _, _ => 0

/-- Sobel y kernel entry at row ky, column kx (0-based; lines 80-84). -/
def sobelY : ℕ → ℕ → ℚ
  | 0, 0 => -1
  | 0, 1 => -2
  | 0, 2 => -1
  | 1, 0 => 0
  | 1, 1 => 0
  | 1, 2 => 0
  | 2, 0 => 1
  | 2, 1 => 2
  | 2, 2 => 1
  | _, _ => 0

/-- The accumulation gx += gray[y+ky][x+kx] * kernel[ky][kx] over the 3x3
window (lines 86-95), at an interior pixel (so x+kx-1 and y+ky-1 never
underflow): any NaN operand makes the accumulated value NaN, exactly as
in JavaScript (NaN propagates through * and +, including 0 * NaN). -/
def sobelSum (k : ℕ → ℕ → ℚ) (w : ℕ) (data : List ℚ) (x y : ℕ) : Option ℚ :=
  (List.range 3).foldl
    (fun acc ky =>
      (List.range 3).foldl
        (fun acc2 kx => do
          let a ← acc2
          let g ← grayAt w data (x + kx - 1) (y + ky - 1)
          pure (a + g * k ky kx))
        acc)
    (some 0)

/-- Step 2 (lines 74-99): the binary edge decision.  The source marks an
interior pixel as an edge iff sqrt(gx^2 + gy^2) > 50; on nonnegative
arguments this is gx^2 + gy^2 > 2500, and a NaN magnitude compares
false.  Border pixels keep their initial 0. -/
def edgeMapOf (w h : ℕ) (data : List ℚ) : EdgeMap :=
  { width := w
    height := h
    edge := fun x y =>
      if 1 ≤ x ∧ x < w - 1 ∧ 1 ≤ y ∧ y < h - 1 then
        match sobelSum sobelX w data x y, sobelSum sobelY w data x y with
        | some gx, some gy => decide (2500 < gx * gx + gy * gy)
        | _, _ => false
      else false }

/-- C2: the regions discovered by the row-major scan with stack-based
flood fill over the edge map the pipeline computes from any input image
are pairwise disjoint - each region is duplicate-free and no pixel occurs
in two regions, so every pixel is assigned to at most one region - and
the total size of all discovered regions is at most the number of edge
pixels of the edge map. -/
theorem claim_C2_regions_partition_edge_pixels (w h : ℕ) (data : List ℚ) :
    (∀ r ∈ regionsOf (edgeMapOf w h data), r.Nodup) ∧
      (regionsOf (edgeMapOf w h data)).Pairwise (fun r s => ∀ p ∈ r, p ∉ s) ∧
      ((regionsOf (edgeMapOf w h data)).map List.length).sum
        ≤ (edgeCells (edgeMapOf w h data)).card := by
  have h0 : ScanInv (edgeMapOf w h data) ∅ [] := by
    refine ⟨by simp, by simp, by simp, ?_⟩
    simp
  have hinv := scanLoop_inv (edgeMapOf w h data) (scanCoords (edgeMapOf w h data)) ∅ [] h0
  obtain ⟨i1, i2, i3, i4⟩ := hinv
  exact ⟨i1, i3, i4.trans (Finset.card_le_card Finset.inter_subset_left)⟩

/-! Region analysis and the full pipeline, src/main.ts lines 177-256. -/

/-- Minimum of a list of naturals; the head serves as the default, which
matches Math.min over the nonempty argument lists the pipeline supplies
(the empty case, +Infinity in JavaScript, is never reached: regions are
nonempty). -/
def minL (l : List ℕ) : ℕ := l.foldr min (l.headD 0)

/-- Maximum of a list of naturals, dually to minL. -/
def maxL (l : List ℕ) : ℕ := l.foldr max (l.headD 0)

/-- Number of vertices of the simplified contour (line 203): the length
of rdp(ordered, 0.02 * length).  The tolerance is nonnegative, so rdp
terminates (rdpF_eq_spec); the fallback 0 for the out-of-fuel value is
unreachable. -/
def vertexCount (ordered : List (ℕ × ℕ)) : ℕ :=
  match rdp (ordered.map qp) ((2/100) * (ordered.length : ℚ)) with
  | some l => l.length
  | none => 0

/-- A detected shape: type, confidence, bounding box, center, area. -/
structure DetectedShape where
  type : ShapeType
  confidence : JNum
  boxX : ℚ
  boxY : ℚ
  boxW : ℚ
  boxH : ℚ
  centerX : ℚ
  centerY : ℚ
  area : ℕ
deriving DecidableEq

/-- analyzeRegion of src/main.ts (lines 177-234).  The finite circularity
value 4*pi*area/perimeter^2 is transcendental, so it is abstracted by the
parameter f (an arbitrary function of the region); the perimeter-zero
cases are computed exactly: the perimeter vanishes iff every closed-loop
step of the ordered contour is zero, and then the JavaScript division
gives +Infinity (area positive) or NaN (0/0, empty region). -/
def analyzeRegion (f : List (ℕ × ℕ) → ℚ) (pts : List (ℕ × ℕ)) : DetectedShape :=
  let minX := minL (pts.map (fun p => p.1))
  let maxX := maxL (pts.map (fun p => p.1))
  let minY := minL (pts.map (fun p => p.2))
  let maxY := maxL (pts.map (fun p => p.2))
  let wBox : ℚ := (maxX : ℚ) - (minX : ℚ)
  let hBox : ℚ := (maxY : ℚ) - (minY : ℚ)
  let ordered := sortRegionPoints pts
  let circ : JNum :=
    if (loopSteps ordered).all (fun s => decide (s = 0)) = true
    then (if pts.length = 0 then JNum.nan else JNum.inf)
    else JNum.val (f pts)
  let tc := classifyMain circ (vertexCount ordered) wBox hBox
  { type := tc.1
    confidence := tc.2
    boxX := (minX : ℚ)
    boxY := (minY : ℚ)
    boxW := wBox
    boxH := hBox
    centerX := ((minX : ℚ) + (maxX : ℚ)) / 2
    centerY := ((minY : ℚ) + (maxY : ℚ)) / 2
    area := pts.length }

/-- The result of a detection call. -/
structure DetectionResult where
  shapes : List DetectedShape
  processingTime : ℚ
  imageWidth : ℕ
  imageHeight : ℕ
deriving DecidableEq

/-- detectShapes of src/main.ts (lines 51-256): the full pipeline.  The
two performance.now() clock reads are the inputs tStart and tEnd - the
only nondeterministic quantities of the computation; f abstracts the
finite circularity values as in analyzeRegion.  The source performs NO
validation of the buffer length against width*height*4: an inconsistent
buffer is processed normally, with out-of-range reads behaving as NaN
(see C6). -/
def detectShapes (f : List (ℕ × ℕ) → ℚ) (w h : ℕ) (data : List ℚ)
    (tStart tEnd : ℚ) : DetectionResult :=
  { shapes := ((regionsOf (edgeMapOf w h data)).filter
      (fun r => decide (10 < r.length))).map (analyzeRegion f)
    processingTime := tEnd - tStart
    imageWidth := w
    imageHeight := h }

/-- C1: determinism.  Two runs of the full pipeline on the same buffer
and the same configuration (the same circularity abstraction f) agree on
every field of the DetectionResult except processingTime; the clock
reads, the only nondeterministic inputs, influence nothing else. -/
theorem claim_C1_deterministic (f : List (ℕ × ℕ) → ℚ) (w h : ℕ) (data : List ℚ)
    (t1 t2 t3 t4 : ℚ) :
    (detectShapes f w h data t1 t2).shapes = (detectShapes f w h data t3 t4).shapes ∧
      (detectShapes f w h data t1 t2).imageWidth
        = (detectShapes f w h data t3 t4).imageWidth ∧
      (detectShapes f w h data t1 t2).imageHeight
        = (detectShapes f w h data t3 t4).imageHeight :=
  ⟨rfl, rfl, rfl⟩

lemma classifyMain_inf_one (w h : ℚ) :
    classifyMain JNum.inf 1 w h = (ShapeType.circle, JNum.val (19/20)) := by
  unfold classifyMain
  rw [if_pos ⟨rfl, by norm_num⟩]
  rfl

/-- C5 is refuted by the code: on a single-point region the perimeter is
0 and the source computes circularity = 4*pi*1/0 = +Infinity with no
guard; +Infinity > 0.6 and the vertex count 1 <= 5, so the CIRCLE branch
fires with confidence min(+Infinity, 0.95) = 0.95 - not the generic
polygon branch with circularity defined as 0 that the claim describes.
The call does not throw and the confidence is not NaN, but the mechanism
and the selected branch contradict the claim.  The result holds for every
abstraction f of the finite circularity values, since the zero-perimeter
path never consults f. -/
theorem claim_C5_zero_perimeter_gives_circle (f : List (ℕ × ℕ) → ℚ) :
    analyzeRegion f [(0, 0)]
      = { type := ShapeType.circle, confidence := JNum.val (19/20),
          boxX := 0, boxY := 0, boxW := 0, boxH := 0,
          centerX := 0, centerY := 0, area := 1 } := by
  have hs : sortRegionPoints [(0, 0)] = [(0, 0)] := rfl
  have hv : vertexCount [(0, 0)] = 1 := rfl
  have hl : ((loopSteps [(0, 0)]).all (fun s => decide (s = 0))) = true := by
    norm_num [loopSteps, qp, euclidSq, List.rotate]
  simp only [analyzeRegion, hs, hv, hl, if_true]
  rw [if_neg (by norm_num : ¬([((0:ℕ), (0:ℕ))].length = 0)), classifyMain_inf_one]
  norm_num [minL, maxL]

/-- C6 is refuted by the code: detectShapes performs no input validation
at all.  On a declared 3 x 3 image with an empty pixel buffer (length 0,
inconsistent with 3*3*4 = 36) the call is not rejected: the pipeline runs
to completion - grayscale conversion reads out of range (NaN), the Sobel
magnitude at the single interior pixel is NaN so no pixel becomes an
edge, region finding scans all nine pixels - and a normal DetectionResult
with an empty shape list and the declared dimensions is returned. -/
theorem claim_C6_no_input_validation :
    ([] : List ℚ).length ≠ 3 * 3 * 4 ∧
      (detectShapes (fun _ => 0) 3 3 [] 0 5).shapes = [] ∧
      (detectShapes (fun _ => 0) 3 3 [] 0 5).imageWidth = 3 ∧
      (detectShapes (fun _ => 0) 3 3 [] 0 5).imageHeight = 3 := by
  refine ⟨by norm_num, ?_, rfl, rfl⟩
  decide

end ShapeDet
